import Mathlib

/-!
Shallow embedding of the indexed-Merkle-proof and chunk-verification subsystem
of the `hashing` crate (src/hashing/src/{primitives.rs, chunk_with_proof.rs,
error.rs}).

The BLAKE2b primitive is opaque in the source (an external dependency), so
digests are modelled as a free term algebra: a digest is either a literal
32-byte constant `Blake2bHash([b; 32])` (the sentinels), the hash of a raw
byte string (`blake2b_hash`), or the hash of a pair of inputs (`hash_pair`,
which the source instantiates once at `(u64-le-bytes, digest)` and once at
`(digest, digest)`).  Equality of digests is structural equality of the
symbolic computations, matching the spec's treatment of the primitive as an
ideal black box.

`itertools::tree_fold1` (an external dependency of `hash_merkle_tree` and
`IndexedMerkleProof::new`) is embedded by its balanced-tree semantics: on a
list of length at least two it splits at the largest power of two strictly
below the length, folds both halves and combines.  This is the exact pairing
shape drawn in the doc comment of `hash_merkle_tree` and is the shape the
repository's own test oracle `reference_root_from_proof` recurses on.
-/

namespace Casper

/-- A 32-byte BLAKE2b digest, modelled symbolically.
`lit b` is the literal constant `Blake2bHash([b; 32])`;
`ofBytes data` is `blake2b_hash(data)`;
`ofBytesHash bs h` is `hash_pair(bs, h)` with `bs` a raw byte string;
`ofHashPair h1 h2` is `hash_pair(h1, h2)` on two digests. -/
inductive Blake2bHash : Type where
  | lit : Nat → Blake2bHash
  | ofBytes : List Nat → Blake2bHash
  | ofBytesHash : List Nat → Blake2bHash → Blake2bHash
  | ofHashPair : Blake2bHash → Blake2bHash → Blake2bHash
  deriving DecidableEq, Repr

/-- Sentinel hash used by `hash_merkle_tree` for an empty list: `Blake2bHash([2u8; 32])`. -/
def SENTINEL2 : Blake2bHash := Blake2bHash.lit 2

/-- The function `blake2b_hash(data)` from primitives.rs. -/
def blake2b_hash (data : List Nat) : Blake2bHash := Blake2bHash.ofBytes data

/-- The function `hash_pair(data1, data2)` at digest arguments. -/
def hash_pair (h1 h2 : Blake2bHash) : Blake2bHash := Blake2bHash.ofHashPair h1 h2

/-- The function `hash_pair(data1, data2)` with a raw byte string first argument
(used as `hash_pair(count.to_le_bytes(), raw_root)`). -/
def hash_pair_bytes (bs : List Nat) (h : Blake2bHash) : Blake2bHash :=
  Blake2bHash.ofBytesHash bs h

/-- Model of `u64::to_le_bytes`: the 8 little-endian bytes of `n` (only the low 64 bits
of `n` contribute, exactly as for a wrapped `u64`). -/
def u64_le_bytes (n : Nat) : List Nat :=
  [n % 256, n / 2 ^ 8 % 256, n / 2 ^ 16 % 256, n / 2 ^ 24 % 256,
   n / 2 ^ 32 % 256, n / 2 ^ 40 % 256, n / 2 ^ 48 % 256, n / 2 ^ 56 % 256]

/-- The pivot `1u64 << (63 - (n - 1).leading_zeros())` for `n > 1`: the largest power of
two that is at most `n - 1`, i.e. the largest power of two strictly below `n`. -/
def pivot_of (n : Nat) : Nat := 2 ^ Nat.log2 (n - 1)

theorem pivot_of_pos (n : Nat) : 0 < pivot_of n :=
  Nat.pos_pow_of_pos _ (by omega)

theorem pivot_of_lt {n : Nat} (h : 2 ≤ n) : pivot_of n < n := by
  have h1 : n - 1 ≠ 0 := by omega
  have h2 : 2 ^ Nat.log2 (n - 1) ≤ n - 1 := by
    rw [Nat.log2_eq_log_two]
    exact Nat.pow_log_le_self 2 h1
  unfold pivot_of
  omega

theorem lt_two_mul_pivot_of {n : Nat} (h : 2 ≤ n) : n ≤ 2 * pivot_of n := by
  have h2 : n - 1 < 2 ^ (Nat.log2 (n - 1) + 1) := by
    rw [Nat.log2_eq_log_two]
    exact Nat.lt_pow_succ_log_self (by omega) (n - 1)
  unfold pivot_of
  have h3 : 2 ^ (Nat.log2 (n - 1) + 1) = 2 * 2 ^ Nat.log2 (n - 1) := by
    rw [Nat.pow_succ]
    ring
  omega

/-- Model of `itertools::tree_fold1`: balanced pairwise fold.  On a list of length at
least two it splits at the largest power of two strictly below the length,
folds each half and combines the two results with `f`.  This is the pairing
shape documented for `hash_merkle_tree` in primitives.rs and the shape that
the repository's test oracle `reference_root_from_proof` descends on. -/
def tree_fold1 {α : Type} (f : α → α → α) : List α → Option α
  | [] => none
  | [x] => some x
  | x :: y :: rest =>
    match tree_fold1 f ((x :: y :: rest).take (pivot_of (rest.length + 2))),
        tree_fold1 f ((x :: y :: rest).drop (pivot_of (rest.length + 2))) with
    | some a, some b => some (f a b)
    | some a, none => some a
    | none, o => o
  termination_by l => l.length
  decreasing_by
  · simp only [List.length_take, List.length_cons]
    have hp := pivot_of_lt (n := rest.length + 2) (by omega)
    omega
  · simp only [List.length_drop, List.length_cons]
    have hp := pivot_of_pos (rest.length + 2)
    omega

/-- The function `hash_merkle_tree(leaves)` from primitives.rs: tag each leaf with count 1,
`tree_fold1` combining counts and `hash_pair`, defaulting to `(0, SENTINEL2)`
on an empty input, then bind the count: `hash_pair(count.to_le_bytes(), raw)`.
Counts are kept as `Nat`; a `u64` would wrap modulo `2^64`, but the only
consumer is `to_le_bytes`, which reads exactly the low 64 bits. -/
def hash_merkle_tree (leaves : List Blake2bHash) : Blake2bHash :=
  let folded := tree_fold1
    (fun xc yc => (xc.1 + yc.1, hash_pair xc.2 yc.2))
    (leaves.map fun x => ((1 : Nat), x))
  let cr := folded.getD (0, SENTINEL2)
  hash_pair_bytes (u64_le_bytes cr.1) cr.2

/-- The enum `MerkleVerificationError` from error.rs. -/
inductive MerkleVerificationError : Type where
  | IndexOutOfBounds : Nat → Nat → MerkleVerificationError
  | UnexpectedProofLength : Nat → Nat → Nat → Nat → MerkleVerificationError
  deriving DecidableEq, Repr

/-- The enum `MerkleConstructionError` from error.rs. -/
inductive MerkleConstructionError : Type where
  | EmptyProofMustHaveIndex : Nat → MerkleConstructionError
  | IndexOutOfBounds : Nat → Nat → MerkleConstructionError
  deriving DecidableEq, Repr

/-- The `IndexedMerkleProof` record from primitives.rs.  `index` and `count`
are `u64` in the source; theorems that depend on machine width carry explicit
`< 2 ^ 64` hypotheses. -/
structure IndexedMerkleProof : Type where
  index : Nat
  count : Nat
  merkle_proof : List Blake2bHash
  deriving DecidableEq, Repr

/-- The path-computing `while` loop of `IndexedMerkleProof::root_hash`:
`path` is a `u64` register, so the left shift is taken modulo `2 ^ 64`. -/
def path_loop (n i path : Nat) : Nat :=
  if 1 < n then
    if i < pivot_of n then path_loop (pivot_of n) i ((path <<< 1) % 2 ^ 64)
    else path_loop (n - pivot_of n) (i - pivot_of n) (((path <<< 1) % 2 ^ 64) ||| 1)
  else path
  termination_by n
  decreasing_by
  · exact pivot_of_lt (by omega)
  · have := pivot_of_pos n
    omega

/-- The hashing `for` loop of `IndexedMerkleProof::root_hash`: consume the
siblings above the leaf, reading one direction bit per step from the low end
of `path`. -/
def hash_fold : Nat → Blake2bHash → List Blake2bHash → Blake2bHash
  | _, acc, [] => acc
  | path, acc, h :: rest =>
    hash_fold (path >>> 1) (if path &&& 1 = 1 then hash_pair h acc else hash_pair acc h) rest

/-- The method `IndexedMerkleProof::root_hash` from primitives.rs. -/
def IndexedMerkleProof.root_hash (self : IndexedMerkleProof) : Blake2bHash :=
  let raw_root :=
    match self.merkle_proof with
    | [] => SENTINEL2
    | leaf_hash :: hashes => hash_fold (path_loop self.count self.index 0) leaf_hash hashes
  hash_pair_bytes (u64_le_bytes self.count) raw_root

/-- The `while` loop of `IndexedMerkleProof::compute_expected_proof_length`. -/
def proof_len_loop (n i l : Nat) : Nat :=
  if 1 < n then
    if i < pivot_of n then proof_len_loop (pivot_of n) i (l + 1)
    else proof_len_loop (n - pivot_of n) (i - pivot_of n) (l + 1)
  else l
  termination_by n
  decreasing_by
  · exact pivot_of_lt (by omega)
  · have := pivot_of_pos n
    omega

/-- The method `IndexedMerkleProof::compute_expected_proof_length` from primitives.rs. -/
def IndexedMerkleProof.compute_expected_proof_length (self : IndexedMerkleProof) : Nat :=
  if self.count = 0 then 0 else proof_len_loop self.count self.index 1

/-- The method `IndexedMerkleProof::verify` from primitives.rs. -/
def IndexedMerkleProof.verify (self : IndexedMerkleProof) :
    Except MerkleVerificationError Unit :=
  if ¬ ((self.count = 0 ∧ self.index = 0) ∨ self.index < self.count) then
    Except.error (MerkleVerificationError.IndexOutOfBounds self.count self.index)
  else
    let expected := self.compute_expected_proof_length
    if self.merkle_proof.length ≠ expected then
      Except.error (MerkleVerificationError.UnexpectedProofLength
        self.count self.index expected self.merkle_proof.length)
    else Except.ok ()

/-- The local `enum HashOrProof` of `IndexedMerkleProof::new`. -/
inductive HashOrProof : Type where
  | hash : Blake2bHash → HashOrProof
  | proof : List Blake2bHash → HashOrProof
  deriving DecidableEq, Repr

/-- The combining closure passed to `tree_fold1` inside
`IndexedMerkleProof::new`.  The `(Proof, Proof)` arm is `unreachable!()` in
the source (exactly one leaf is tagged); the model returns the left carrier
there, and the reachability invariant is proved separately. -/
def new_combine : Nat × HashOrProof → Nat × HashOrProof → Nat × HashOrProof
  | (cx, HashOrProof.hash hx), (cy, HashOrProof.hash hy) =>
    (cx + cy, HashOrProof.hash (hash_pair hx hy))
  | (cx, HashOrProof.hash h), (cy, HashOrProof.proof p) =>
    (cx + cy, HashOrProof.proof (p ++ [h]))
  | (cx, HashOrProof.proof p), (cy, HashOrProof.hash h) =>
    (cx + cy, HashOrProof.proof (p ++ [h]))
  | (cx, HashOrProof.proof p), (cy, HashOrProof.proof _) =>
    (cx + cy, HashOrProof.proof p)

/-- The `enumerate().map(...)` stage of `IndexedMerkleProof::new`: tag the
leaf at position `index` as a one-element proof accumulator, every other leaf
as a plain hash, each with count 1. -/
def tag_leaves (index : Nat) (leaves : List Blake2bHash) : List (Nat × HashOrProof) :=
  leaves.enum.map fun ih =>
    if ih.1 = index then ((1 : Nat), HashOrProof.proof [ih.2])
    else ((1 : Nat), HashOrProof.hash ih.2)

/-- The constructor `IndexedMerkleProof::new` from primitives.rs. -/
def IndexedMerkleProof.new (leaves : List Blake2bHash) (index : Nat) :
    Except MerkleConstructionError IndexedMerkleProof :=
  match tree_fold1 new_combine (tag_leaves index leaves) with
  | none =>
    if index ≠ 0 then Except.error (MerkleConstructionError.EmptyProofMustHaveIndex index)
    else Except.ok ⟨0, 0, []⟩
  | some (count, HashOrProof.hash _) =>
    Except.error (MerkleConstructionError.IndexOutOfBounds count index)
  | some (count, HashOrProof.proof mp) => Except.ok ⟨index, count, mp⟩

/-- The recursive helper of the test oracle `reference_root_from_proof` in
primitives.rs.  The source indexes `proof[0]` and `proof[last]` directly
(panicking out of domain); the model supplies `SENTINEL2` defaults, which are
never read under the proof-length hypotheses of the theorems below. -/
def compute_raw_root_from_proof (index leaf_count : Nat) (proof : List Blake2bHash) :
    Blake2bHash :=
  if leaf_count = 0 then SENTINEL2
  else if leaf_count = 1 then proof.getD 0 SENTINEL2
  else if index < pivot_of leaf_count then
    hash_pair (compute_raw_root_from_proof index (pivot_of leaf_count) proof.dropLast)
      (proof.getLastD SENTINEL2)
  else
    hash_pair (proof.getLastD SENTINEL2)
      (compute_raw_root_from_proof (index - pivot_of leaf_count)
        (leaf_count - pivot_of leaf_count) proof.dropLast)
  termination_by leaf_count
  decreasing_by
  · exact pivot_of_lt (by omega)
  · have := pivot_of_pos leaf_count
    omega

/-- The test oracle `reference_root_from_proof` from primitives.rs: natural
recursive tree descent, then the same count binding as `hash_merkle_tree`. -/
def reference_root_from_proof (index count : Nat) (proof : List Blake2bHash) :
    Blake2bHash :=
  hash_pair_bytes (u64_le_bytes count) (compute_raw_root_from_proof index count proof)

/-- Rust `slice::chunks(size)`: consecutive pieces of `size` bytes, the last
possibly shorter; an empty slice yields no chunks.  The source panics on
`size = 0` (the model returns `[]` there; theorems about non-empty data carry
`0 < size`). -/
def chunksOf (size : Nat) : List Nat → List (List Nat)
  | [] => []
  | d :: ds =>
    if size = 0 then []
    else (d :: ds).take size :: chunksOf size ((d :: ds).drop size)
  termination_by l => l.length
  decreasing_by
  simp only [List.length_drop, List.length_cons]
  omega

/-- The `ChunkWithProof` record from chunk_with_proof.rs. -/
structure ChunkWithProof : Type where
  proof : IndexedMerkleProof
  chunk : List Nat
  deriving DecidableEq, Repr

/-- The constructor `ChunkWithProof::new` from chunk_with_proof.rs.  The `proof` field is
computed before the `chunk` field, so a proof-construction error propagates
first, exactly as in the source's struct literal. -/
def ChunkWithProof.new (data : List Nat) (index : Nat) (chunk_size : Nat) :
    Except MerkleConstructionError ChunkWithProof :=
  if data = [] then
    match IndexedMerkleProof.new [blake2b_hash []] index with
    | Except.error e => Except.error e
    | Except.ok proof => Except.ok ⟨proof, []⟩
  else
    match IndexedMerkleProof.new ((chunksOf chunk_size data).map blake2b_hash) index with
    | Except.error e => Except.error e
    | Except.ok proof =>
      match (chunksOf chunk_size data)[index]? with
      | some c => Except.ok ⟨proof, c⟩
      | none =>
        Except.error
          (MerkleConstructionError.IndexOutOfBounds (chunksOf chunk_size data).length index)

/-- The method `ChunkWithProof::verify` from chunk_with_proof.rs: structural proof
verification first, then compare the hash of the payload with the first
sibling entry; a missing first entry is a failed match (`map_or(false, ...)`). -/
def ChunkWithProof.verify (self : ChunkWithProof) : Bool :=
  match self.proof.verify with
  | Except.error _ => false
  | Except.ok _ =>
    let chunk_hash := blake2b_hash self.chunk
    match self.proof.merkle_proof.head? with
    | none => false
    | some first => decide (chunk_hash = first)

/-! ### Specification-side recursive descriptions

The following definitions restate the loops above as recursions on the tree
structure; the theorems below prove them equal to the loop-based code. -/

/-- The direction path from the root to leaf `i` of a subtree of `n` leaves,
most-significant step first; `false` is "go left", `true` is "go right".
One entry per iteration of the `while` loops in `root_hash` and
`compute_expected_proof_length`. -/
def path_bits (n i : Nat) : List Bool :=
  if 1 < n then
    if i < pivot_of n then false :: path_bits (pivot_of n) i
    else true :: path_bits (n - pivot_of n) (i - pivot_of n)
  else []
  termination_by n
  decreasing_by
  · exact pivot_of_lt (by omega)
  · have := pivot_of_pos n
    omega

/-- The raw (count-free) pairwise-reduction Merkle root of a leaf list:
split at the largest power of two below the length, combine the halves. -/
def rawRoot : List Blake2bHash → Blake2bHash
  | [] => SENTINEL2
  | [x] => x
  | x :: y :: rest =>
    hash_pair (rawRoot ((x :: y :: rest).take (pivot_of (rest.length + 2))))
      (rawRoot ((x :: y :: rest).drop (pivot_of (rest.length + 2))))
  termination_by l => l.length
  decreasing_by
  · simp only [List.length_take, List.length_cons]
    have hp := pivot_of_lt (n := rest.length + 2) (by omega)
    omega
  · simp only [List.length_drop, List.length_cons]
    have hp := pivot_of_pos (rest.length + 2)
    omega

/-- The sibling list that authenticates leaf `i` of a leaf list: the leaf
itself first, then one sibling subtree root per level, deepest first. -/
def proofList : Nat → List Blake2bHash → List Blake2bHash
  | _, [] => []
  | _, [x] => [x]
  | i, x :: y :: rest =>
    if i < pivot_of (rest.length + 2) then
      proofList i ((x :: y :: rest).take (pivot_of (rest.length + 2)))
        ++ [rawRoot ((x :: y :: rest).drop (pivot_of (rest.length + 2)))]
    else
      proofList (i - pivot_of (rest.length + 2))
          ((x :: y :: rest).drop (pivot_of (rest.length + 2)))
        ++ [rawRoot ((x :: y :: rest).take (pivot_of (rest.length + 2)))]
  termination_by _ l => l.length
  decreasing_by
  · simp only [List.length_take, List.length_cons]
    have hp := pivot_of_lt (n := rest.length + 2) (by omega)
    omega
  · simp only [List.length_drop, List.length_cons]
    have hp := pivot_of_pos (rest.length + 2)
    omega

/-- The expected sibling-list length as the spec words it: 0 when the count
is 0, otherwise 1 plus the number of direction-path bits. -/
def expected_len (count index : Nat) : Nat :=
  if count = 0 then 0 else 1 + (path_bits count index).length

/-- The number of chunks a buffer splits into: an empty buffer counts as
exactly one (empty) chunk. -/
def num_chunks (data : List Nat) (size : Nat) : Nat :=
  if data = [] then 1 else (chunksOf size data).length

/-- Value of a bit list read least-significant-bit first. -/
def nat_of_bits : List Bool → Nat
  | [] => 0
  | b :: bs => (if b then 1 else 0) + 2 * nat_of_bits bs

/-- Variant of `hash_fold` with the direction bits as an explicit list (deepest-level
bit first) instead of packed into a machine word. -/
def fold_bits : List Bool → Blake2bHash → List Blake2bHash → Blake2bHash
  | _, acc, [] => acc
  | [], acc, h :: rest => fold_bits [] (hash_pair acc h) rest
  | b :: bs, acc, h :: rest =>
    fold_bits bs (if b then hash_pair h acc else hash_pair acc h) rest

/-- Top-down root reconstruction along a direction path: the head bit decides
how the accumulator combines with the last (topmost) sibling. -/
def raw_from_path : List Bool → Blake2bHash → List Blake2bHash → Blake2bHash
  | [], leaf, _ => leaf
  | b :: bs, leaf, sibs =>
    let rest := raw_from_path bs leaf sibs.dropLast
    if b then hash_pair (sibs.getLastD SENTINEL2) rest
    else hash_pair rest (sibs.getLastD SENTINEL2)

/-- Variant of `tag_leaves` with an explicit starting position, so that it distributes
over `take`/`drop` (the `enumerate` counter keeps running across the split). -/
def tag_from (start index : Nat) : List Blake2bHash → List (Nat × HashOrProof)
  | [] => []
  | x :: xs =>
    (if start = index then ((1 : Nat), HashOrProof.proof [x])
     else ((1 : Nat), HashOrProof.hash x)) :: tag_from (start + 1) index xs

/-! ### Bit and path machinery -/

theorem two_mul_lor_one (k : Nat) : 2 * k ||| 1 = 2 * k + 1 := by
  have h := Nat.lor_bit false k true 0
  simpa [Nat.bit] using h

theorem proof_len_loop_eq (n i c : Nat) : proof_len_loop n i c = c + (path_bits n i).length := by
  induction n, i using path_bits.induct generalizing c with
  | case1 n i hlt hip ih =>
    rw [proof_len_loop, path_bits]
    simp only [if_pos hlt, if_pos hip, ih]
    simp only [List.length_cons]
    omega
  | case2 n i hlt hip ih =>
    rw [proof_len_loop, path_bits]
    simp only [if_pos hlt, if_neg hip, ih]
    simp only [List.length_cons]
    omega
  | case3 n i hlt =>
    rw [proof_len_loop, path_bits]
    simp [hlt]

theorem path_bits_length_le (k : Nat) :
    ∀ n i, n ≤ 2 ^ k → (path_bits n i).length ≤ k := by
  induction k with
  | zero =>
    intro n i hn
    rw [path_bits]
    have : ¬ 1 < n := by simpa using hn
    simp [this]
  | succ k ih =>
    intro n i hn
    rw [path_bits]
    by_cases hlt : 1 < n
    · have hpl : pivot_of n ≤ 2 ^ k := by
        have h1 : pivot_of n < n := pivot_of_lt (by omega)
        have h2 : pivot_of n = 2 ^ Nat.log2 (n - 1) := rfl
        have h3 : 2 ^ Nat.log2 (n - 1) ≤ n - 1 := by
          rw [Nat.log2_eq_log_two]
          exact Nat.pow_log_le_self 2 (by omega)
        have h4 : Nat.log2 (n - 1) < k + 1 := by
          by_contra hc
          push_neg at hc
          have := Nat.pow_le_pow_right (by omega : 0 < 2) hc
          omega
        rw [h2]
        exact Nat.pow_le_pow_right (by omega) (by omega)
      have hub : n - pivot_of n ≤ 2 ^ k := by
        have := lt_two_mul_pivot_of (n := n) (by omega)
        omega
      by_cases hip : i < pivot_of n
      · simp only [if_pos hlt, if_pos hip, List.length_cons]
        have := ih (pivot_of n) i hpl
        omega
      · simp only [if_pos hlt, if_neg hip, List.length_cons]
        have := ih (n - pivot_of n) (i - pivot_of n) hub
        omega
    · simp [hlt]

theorem nat_of_bits_lt (bs : List Bool) : nat_of_bits bs < 2 ^ bs.length := by
  induction bs with
  | nil => simp [nat_of_bits]
  | cons b bs ih =>
    simp only [nat_of_bits, List.length_cons, Nat.pow_succ]
    cases b <;> simp <;> omega

theorem nat_of_bits_append (bs : List Bool) (b : Bool) :
    nat_of_bits (bs ++ [b]) = nat_of_bits bs + (if b then 1 else 0) * 2 ^ bs.length := by
  induction bs with
  | nil => simp [nat_of_bits]
  | cons c cs ih =>
    show nat_of_bits (c :: (cs ++ [b])) = _
    rw [nat_of_bits, ih]
    simp only [List.length_cons, Nat.pow_succ]
    cases b <;> cases c <;> simp [nat_of_bits] <;> ring

theorem path_step_or (path : Nat) :
    ((path <<< 1) % 2 ^ 64) ||| 1 = (2 * path + 1) % 2 ^ 64 := by
  rw [Nat.shiftLeft_eq]
  have h1 : path * 2 ^ 1 = 2 * path := by ring
  rw [h1]
  have h2 : (2 * path) % 2 ^ 64 = 2 * (path % 2 ^ 63) := by
    have := Nat.mul_mod_mul_left 2 path (2 ^ 63)
    have h3 : 2 * 2 ^ 63 = 2 ^ 64 := by norm_num
    rw [← h3]
    exact this
  rw [h2, two_mul_lor_one]
  have h4 : path % 2 ^ 63 = path % 9223372036854775808 := by norm_num
  have h5 : (2 * path + 1) % 2 ^ 64 = (2 * path + 1) % 18446744073709551616 := by norm_num
  rw [h4, h5]
  omega

theorem path_loop_eq_foldl (n i : Nat) : ∀ path, path_loop n i path =
    (path_bits n i).foldl (fun a b => (2 * a + (if b then 1 else 0)) % 2 ^ 64) path := by
  induction n, i using path_bits.induct with
  | case1 n i hlt hip ih =>
    intro path
    rw [path_loop, path_bits]
    simp only [if_pos hlt, if_pos hip, List.foldl_cons, ih]
    congr 1
  | case2 n i hlt hip ih =>
    intro path
    rw [path_loop, path_bits]
    simp only [if_pos hlt, if_neg hip, List.foldl_cons, ih, path_step_or]
    norm_num
  | case3 n i hlt =>
    intro path
    rw [path_loop, path_bits]
    simp [hlt]

theorem foldl_no_wrap : ∀ (bits : List Bool) (a : Nat),
    a * 2 ^ bits.length + nat_of_bits bits.reverse < 2 ^ 64 →
    bits.foldl (fun a b => (2 * a + (if b then 1 else 0)) % 2 ^ 64) a =
      a * 2 ^ bits.length + nat_of_bits bits.reverse := by
  intro bits
  induction bits with
  | nil =>
    intro a ha
    simp only [List.foldl_nil, List.length_nil, List.reverse_nil, nat_of_bits]
    omega
  | cons b bs ih =>
    intro a ha
    have hval : a * 2 ^ (b :: bs).length + nat_of_bits (b :: bs).reverse =
        (2 * a + (if b then 1 else 0)) * 2 ^ bs.length + nat_of_bits bs.reverse := by
      simp only [List.length_cons, List.reverse_cons, nat_of_bits_append, Nat.pow_succ]
      cases b <;> simp <;> ring
    rw [hval] at ha ⊢
    have hsmall : 2 * a + (if b then 1 else 0) < 2 ^ 64 := by
      have h1 : 1 ≤ 2 ^ bs.length := Nat.one_le_two_pow
      have h2 : (2 * a + (if b then 1 else 0)) * 1 ≤
          (2 * a + (if b then 1 else 0)) * 2 ^ bs.length := by
        exact Nat.mul_le_mul_left _ h1
      omega
    simp only [List.foldl_cons]
    rw [Nat.mod_eq_of_lt hsmall]
    exact ih _ ha

theorem path_loop_spec (n i : Nat) (h : (path_bits n i).length ≤ 64) :
    path_loop n i 0 = nat_of_bits (path_bits n i).reverse := by
  rw [path_loop_eq_foldl]
  have hlt : 0 * 2 ^ (path_bits n i).length + nat_of_bits (path_bits n i).reverse < 2 ^ 64 := by
    have h1 := nat_of_bits_lt (path_bits n i).reverse
    have h2 : (2 : Nat) ^ (path_bits n i).reverse.length ≤ 2 ^ 64 := by
      apply Nat.pow_le_pow_right (by omega)
      simpa using h
    omega
  rw [foldl_no_wrap _ _ hlt]
  omega

/-! ### The hashing fold along a direction path -/

theorem getLastD_irrel {α : Type} {l : List α} (h : l ≠ []) (d1 d2 : α) :
    l.getLastD d1 = l.getLastD d2 := by
  cases l with
  | nil => exact absurd rfl h
  | cons x xs =>
    rw [List.getLastD_cons, List.getLastD_cons]

theorem hash_fold_eq_fold_bits :
    ∀ (sibs : List Blake2bHash) (bs : List Bool) (acc : Blake2bHash),
    hash_fold (nat_of_bits bs) acc sibs = fold_bits bs acc sibs := by
  intro sibs
  induction sibs with
  | nil => intro bs acc; cases bs <;> rfl
  | cons h rest ih =>
    intro bs acc
    cases bs with
    | nil =>
      rw [show nat_of_bits [] = 0 from rfl, hash_fold, fold_bits]
      rw [show ((0 : Nat) >>> 1) = 0 from rfl]
      rw [show ((0 : Nat) &&& 1) = 0 from rfl]
      simpa using ih [] (hash_pair acc h)
    | cons b bs' =>
      rw [hash_fold, fold_bits]
      have hmod : nat_of_bits (b :: bs') &&& 1 = (if b then 1 else 0) := by
        rw [Nat.and_one_is_mod, nat_of_bits]
        cases b <;> simp
      have hdiv : nat_of_bits (b :: bs') >>> 1 = nat_of_bits bs' := by
        rw [Nat.shiftRight_eq_div_pow, nat_of_bits]
        cases b
        · simp
        · simp
          omega
      rw [hmod, hdiv]
      cases b
      · simpa using ih bs' (hash_pair acc h)
      · simpa using ih bs' (hash_pair h acc)

theorem fold_bits_snoc :
    ∀ (ys : List Bool) (b : Bool) (leaf : Blake2bHash) (sibs : List Blake2bHash),
    sibs.length = ys.length + 1 →
    fold_bits (ys ++ [b]) leaf sibs =
      (if b then hash_pair (sibs.getLastD SENTINEL2) (fold_bits ys leaf sibs.dropLast)
       else hash_pair (fold_bits ys leaf sibs.dropLast) (sibs.getLastD SENTINEL2)) := by
  intro ys
  induction ys with
  | nil =>
    intro b leaf sibs hlen
    match sibs, hlen with
    | [s], _ =>
      cases b <;> rfl
  | cons y ys' ih =>
    intro b leaf sibs hlen
    match sibs, hlen with
    | s :: sibs', hlen =>
      have hlen' : sibs'.length = ys'.length + 1 := by
        simpa using hlen
      have hne : sibs' ≠ [] := by
        intro hc
        rw [hc] at hlen'
        simp at hlen'
      rw [show ((y :: ys') ++ [b]) = y :: (ys' ++ [b]) from rfl]
      rw [fold_bits, ih b _ sibs' hlen']
      have hdl : (s :: sibs').dropLast = s :: sibs'.dropLast := by
        cases sibs' with
        | nil => exact absurd rfl hne
        | cons q qt => rfl
      have hgl : (s :: sibs').getLastD SENTINEL2 = sibs'.getLastD SENTINEL2 := by
        rw [List.getLastD_cons]
        exact getLastD_irrel hne s SENTINEL2
      rw [hdl, hgl]
      have hfb : fold_bits (y :: ys') leaf (s :: sibs'.dropLast) =
          fold_bits ys' (if y then hash_pair s leaf else hash_pair leaf s) sibs'.dropLast := by
        rfl
      rw [hfb]

theorem raw_from_path_eq_fold :
    ∀ (bits : List Bool) (leaf : Blake2bHash) (sibs : List Blake2bHash),
    sibs.length = bits.length →
    raw_from_path bits leaf sibs = fold_bits bits.reverse leaf sibs := by
  intro bits
  induction bits with
  | nil =>
    intro leaf sibs hlen
    match sibs, hlen with
    | [], _ => rfl
  | cons b bs ih =>
    intro leaf sibs hlen
    rw [raw_from_path, List.reverse_cons]
    rw [fold_bits_snoc bs.reverse b leaf sibs (by simpa using hlen)]
    rw [ih leaf sibs.dropLast ?hl]
    case hl =>
      simp only [List.length_dropLast]
      simp only [List.length_cons] at hlen
      omega

/-! ### The test oracle follows the direction path -/

theorem dropLast_cons_of_ne_nil {α : Type} (x : α) {l : List α} (h : l ≠ []) :
    (x :: l).dropLast = x :: l.dropLast := by
  cases l with
  | nil => exact absurd rfl h
  | cons y ys => rfl

theorem getLastD_cons_of_ne_nil {α : Type} (x : α) {l : List α} (h : l ≠ []) (d : α) :
    (x :: l).getLastD d = l.getLastD d := by
  rw [List.getLastD_cons]
  exact getLastD_irrel h x d

theorem compute_raw_root_eq : ∀ (n : Nat), ∀ (i : Nat) (p0 : Blake2bHash)
    (ptail : List Blake2bHash), 1 ≤ n → ptail.length = (path_bits n i).length →
    compute_raw_root_from_proof i n (p0 :: ptail) = raw_from_path (path_bits n i) p0 ptail := by
  intro n
  induction n using Nat.strong_induction_on with
  | _ n ih =>
    intro i p0 ptail hn hlen
    by_cases h1 : n = 1
    · subst h1
      rw [path_bits] at hlen ⊢
      simp only [show ¬ (1 : Nat) < 1 by omega, if_false] at hlen ⊢
      rw [compute_raw_root_from_proof]
      simp [raw_from_path]
    · have hn2 : 2 ≤ n := by omega
      rw [path_bits] at hlen ⊢
      simp only [if_pos (show 1 < n by omega)] at hlen ⊢
      rw [compute_raw_root_from_proof]
      simp only [if_neg (show ¬ n = 0 by omega), if_neg h1]
      have hpp := pivot_of_pos n
      have hpl := pivot_of_lt hn2
      by_cases hip : i < pivot_of n
      · simp only [if_pos hip] at hlen ⊢
        have hne : ptail ≠ [] := by
          intro hc
          rw [hc] at hlen
          simp at hlen
        rw [dropLast_cons_of_ne_nil p0 hne]
        rw [getLastD_cons_of_ne_nil p0 hne]
        rw [raw_from_path]
        simp only [if_neg (show ¬ false = true by simp)]
        rw [ih (pivot_of n) hpl i p0 ptail.dropLast (by omega) ?hlen2]
        case hlen2 =>
          simp only [List.length_dropLast]
          simp only [List.length_cons] at hlen
          omega
      · simp only [if_neg hip] at hlen ⊢
        have hne : ptail ≠ [] := by
          intro hc
          rw [hc] at hlen
          simp at hlen
        rw [dropLast_cons_of_ne_nil p0 hne]
        rw [getLastD_cons_of_ne_nil p0 hne]
        rw [raw_from_path]
        rw [ih (n - pivot_of n) (by omega) (i - pivot_of n) p0 ptail.dropLast (by omega) ?hlen3]
        · simp
        case hlen3 =>
          simp only [List.length_dropLast]
          simp only [List.length_cons] at hlen
          omega

/-! ### Structure of the balanced fold -/

theorem tree_fold1_cons2 {α : Type} (f : α → α → α) (x y : α) (rest : List α) :
    tree_fold1 f (x :: y :: rest) =
      match tree_fold1 f ((x :: y :: rest).take (pivot_of (rest.length + 2))),
          tree_fold1 f ((x :: y :: rest).drop (pivot_of (rest.length + 2))) with
      | some a, some b => some (f a b)
      | some a, none => some a
      | none, o => o := by
  rw [tree_fold1]

theorem rawRoot_cons2 (x y : Blake2bHash) (rest : List Blake2bHash) :
    rawRoot (x :: y :: rest) =
      hash_pair (rawRoot ((x :: y :: rest).take (pivot_of (rest.length + 2))))
        (rawRoot ((x :: y :: rest).drop (pivot_of (rest.length + 2)))) := by
  rw [rawRoot]

theorem proofList_cons2 (i : Nat) (x y : Blake2bHash) (rest : List Blake2bHash) :
    proofList i (x :: y :: rest) =
      if i < pivot_of (rest.length + 2) then
        proofList i ((x :: y :: rest).take (pivot_of (rest.length + 2)))
          ++ [rawRoot ((x :: y :: rest).drop (pivot_of (rest.length + 2)))]
      else
        proofList (i - pivot_of (rest.length + 2))
            ((x :: y :: rest).drop (pivot_of (rest.length + 2)))
          ++ [rawRoot ((x :: y :: rest).take (pivot_of (rest.length + 2)))] := by
  rw [proofList]

theorem tree_fold1_map_count : ∀ (N : Nat) (l : List Blake2bHash), l.length = N → l ≠ [] →
    tree_fold1 (fun xc yc => (xc.1 + yc.1, hash_pair xc.2 yc.2)) (l.map fun x => ((1 : Nat), x)) =
      some (l.length, rawRoot l) := by
  intro N
  induction N using Nat.strong_induction_on with
  | _ N ih =>
    intro l hN hne
    match l with
    | [x] =>
      rw [show ([x].map fun x => ((1 : Nat), x)) = [((1 : Nat), x)] from rfl]
      rw [tree_fold1, rawRoot]
      simp
    | x :: y :: rest =>
      subst hN
      have hL : (x :: y :: rest).length = rest.length + 2 := by simp
      have hpp := pivot_of_pos (rest.length + 2)
      have hpl := pivot_of_lt (n := rest.length + 2) (by omega)
      rw [show ((x :: y :: rest).map fun x => ((1 : Nat), x)) =
        ((1 : Nat), x) :: ((1 : Nat), y) :: (rest.map fun x => ((1 : Nat), x)) from rfl]
      rw [tree_fold1_cons2]
      have hrm : (rest.map fun x => ((1 : Nat), x)).length = rest.length := by simp
      rw [hrm]
      have htake : (((1 : Nat), x) :: ((1 : Nat), y) :: (rest.map fun x => ((1 : Nat), x))).take
            (pivot_of (rest.length + 2)) =
          ((x :: y :: rest).take (pivot_of (rest.length + 2))).map fun x => ((1 : Nat), x) := by
        rw [List.map_take]
        rfl
      have hdrop : (((1 : Nat), x) :: ((1 : Nat), y) :: (rest.map fun x => ((1 : Nat), x))).drop
            (pivot_of (rest.length + 2)) =
          ((x :: y :: rest).drop (pivot_of (rest.length + 2))).map fun x => ((1 : Nat), x) := by
        rw [List.map_drop]
        rfl
      rw [htake, hdrop]
      have htlen : ((x :: y :: rest).take (pivot_of (rest.length + 2))).length =
          pivot_of (rest.length + 2) := by
        simp only [List.length_take, List.length_cons]
        omega
      have hdlen : ((x :: y :: rest).drop (pivot_of (rest.length + 2))).length =
          rest.length + 2 - pivot_of (rest.length + 2) := by
        simp only [List.length_drop, List.length_cons]
      rw [ih (pivot_of (rest.length + 2)) (by omega) _ htlen ?tne]
      rw [ih (rest.length + 2 - pivot_of (rest.length + 2)) (by omega) _ hdlen ?dne]
      case tne =>
        intro hc
        have := congrArg List.length hc
        rw [htlen] at this
        simp at this
        omega
      case dne =>
        intro hc
        have := congrArg List.length hc
        rw [hdlen] at this
        simp at this
        omega
      rw [htlen, hdlen, rawRoot_cons2]
      have hsum : pivot_of (rest.length + 2) + (rest.length + 2 - pivot_of (rest.length + 2)) =
          (x :: y :: rest).length := by
        rw [hL]
        omega
      simp only []
      rw [hsum]



theorem tree_fold1_two_le {α : Type} (f : α → α → α) (l : List α) (h : 2 ≤ l.length) :
    tree_fold1 f l =
      match tree_fold1 f (l.take (pivot_of l.length)), tree_fold1 f (l.drop (pivot_of l.length)) with
      | some a, some b => some (f a b)
      | some a, none => some a
      | none, o => o := by
  match l, h with
  | x :: y :: rest, _ =>
    rw [tree_fold1_cons2]
    have hl : (x :: y :: rest).length = rest.length + 2 := by simp
    rw [hl]

theorem tag_from_length (l : List Blake2bHash) : ∀ s i, (tag_from s i l).length = l.length := by
  induction l with
  | nil => intro s i; rfl
  | cons x xs ih =>
    intro s i
    simp only [tag_from, List.length_cons, ih]

theorem tag_from_take (l : List Blake2bHash) :
    ∀ s i p, (tag_from s i l).take p = tag_from s i (l.take p) := by
  induction l with
  | nil => intro s i p; simp [tag_from]
  | cons x xs ih =>
    intro s i p
    cases p with
    | zero => rfl
    | succ p =>
      simp only [tag_from, List.take_succ_cons]
      rw [ih]

theorem tag_from_drop (l : List Blake2bHash) :
    ∀ s i p, (tag_from s i l).drop p = tag_from (s + p) i (l.drop p) := by
  induction l with
  | nil => intro s i p; simp [tag_from]
  | cons x xs ih =>
    intro s i p
    cases p with
    | zero => rfl
    | succ p =>
      simp only [tag_from, List.drop_succ_cons]
      rw [ih]
      congr 1
      omega

theorem tag_leaves_eq (i : Nat) (l : List Blake2bHash) : tag_leaves i l = tag_from 0 i l := by
  have aux : ∀ (m : List Blake2bHash) (s : Nat),
      ((List.enumFrom s m).map fun ih =>
        if ih.1 = i then ((1 : Nat), HashOrProof.proof [ih.2])
        else ((1 : Nat), HashOrProof.hash ih.2)) = tag_from s i m := by
    intro m
    induction m with
    | nil => intro s; rfl
    | cons x xs ihm =>
      intro s
      simp only [List.enumFrom, List.map_cons, tag_from]
      rw [ihm]
  exact aux l 0

theorem tree_fold1_tagged : ∀ (N : Nat) (l : List Blake2bHash), l.length = N → l ≠ [] →
    ∀ s i, tree_fold1 new_combine (tag_from s i l) =
      if s ≤ i ∧ i < s + l.length then some (l.length, HashOrProof.proof (proofList (i - s) l))
      else some (l.length, HashOrProof.hash (rawRoot l)) := by
  intro N
  induction N using Nat.strong_induction_on with
  | _ N ih =>
    intro l hN hne s i
    match l with
    | [x] =>
      by_cases hsi : s = i
      · subst hsi
        rw [show tag_from s s [x] = [((1 : Nat), HashOrProof.proof [x])] by simp [tag_from]]
        rw [tree_fold1]
        rw [if_pos (by simp : s ≤ s ∧ s < s + [x].length)]
        rw [show s - s = 0 by omega]
        rw [show proofList 0 [x] = [x] by rw [proofList]]
        rfl
      · rw [show tag_from s i [x] = [((1 : Nat), HashOrProof.hash x)] by simp [tag_from, hsi]]
        rw [tree_fold1]
        rw [if_neg (by simp; omega : ¬ (s ≤ i ∧ i < s + [x].length))]
        rw [show rawRoot [x] = x by rw [rawRoot]]
        rfl
    | x :: y :: rest =>
      subst hN
      have hL : (x :: y :: rest).length = rest.length + 2 := by simp
      have hpp := pivot_of_pos (rest.length + 2)
      have hpl := pivot_of_lt (n := rest.length + 2) (by omega)
      rw [tree_fold1_two_le new_combine _ (by rw [tag_from_length]; omega)]
      rw [tag_from_length, hL, tag_from_take, tag_from_drop]
      have htlen : ((x :: y :: rest).take (pivot_of (rest.length + 2))).length =
          pivot_of (rest.length + 2) := by
        simp only [List.length_take, List.length_cons]
        omega
      have hdlen : ((x :: y :: rest).drop (pivot_of (rest.length + 2))).length =
          rest.length + 2 - pivot_of (rest.length + 2) := by
        simp only [List.length_drop, List.length_cons]
      have htne : (x :: y :: rest).take (pivot_of (rest.length + 2)) ≠ [] := by
        intro hc
        have := congrArg List.length hc
        rw [htlen] at this
        simp at this
        omega
      have hdne : (x :: y :: rest).drop (pivot_of (rest.length + 2)) ≠ [] := by
        intro hc
        have := congrArg List.length hc
        rw [hdlen] at this
        simp at this
        omega
      rw [ih (pivot_of (rest.length + 2)) (by omega) _ htlen htne s i]
      rw [ih (rest.length + 2 - pivot_of (rest.length + 2)) (by omega) _ hdlen hdne
        (s + pivot_of (rest.length + 2)) i]
      rw [htlen, hdlen]
      by_cases hc1 : s ≤ i ∧ i < s + pivot_of (rest.length + 2)
      · rw [if_pos hc1]
        rw [if_neg (by omega : ¬ (s + pivot_of (rest.length + 2) ≤ i ∧
          i < s + pivot_of (rest.length + 2) + (rest.length + 2 - pivot_of (rest.length + 2))))]
        rw [if_pos (by omega : s ≤ i ∧ i < s + (rest.length + 2))]
        rw [proofList_cons2, if_pos (by omega : i - s < pivot_of (rest.length + 2))]
        simp only [new_combine]
        rw [show pivot_of (rest.length + 2) + (rest.length + 2 - pivot_of (rest.length + 2)) =
          rest.length + 2 by omega]
      · by_cases hc2 : s + pivot_of (rest.length + 2) ≤ i ∧ i < s + (rest.length + 2)
        · rw [if_neg hc1]
          rw [if_pos (by omega : s + pivot_of (rest.length + 2) ≤ i ∧
            i < s + pivot_of (rest.length + 2) + (rest.length + 2 - pivot_of (rest.length + 2)))]
          rw [if_pos (by omega : s ≤ i ∧ i < s + (rest.length + 2))]
          rw [proofList_cons2, if_neg (by omega : ¬ i - s < pivot_of (rest.length + 2))]
          rw [show i - (s + pivot_of (rest.length + 2)) = i - s - pivot_of (rest.length + 2)
            by omega]
          simp only [new_combine]
          rw [show pivot_of (rest.length + 2) + (rest.length + 2 - pivot_of (rest.length + 2)) =
            rest.length + 2 by omega]
        · rw [if_neg hc1]
          rw [if_neg (by omega : ¬ (s + pivot_of (rest.length + 2) ≤ i ∧
            i < s + pivot_of (rest.length + 2) + (rest.length + 2 - pivot_of (rest.length + 2))))]
          rw [if_neg (by omega : ¬ (s ≤ i ∧ i < s + (rest.length + 2)))]
          rw [rawRoot_cons2]
          simp only [new_combine]
          rw [show pivot_of (rest.length + 2) + (rest.length + 2 - pivot_of (rest.length + 2)) =
            rest.length + 2 by omega]


/-! ### The built sibling list reconstructs the raw root -/

theorem proofList_length : ∀ (N : Nat) (l : List Blake2bHash), l.length = N → l ≠ [] →
    ∀ i, (proofList i l).length = 1 + (path_bits l.length i).length := by
  intro N
  induction N using Nat.strong_induction_on with
  | _ N ih =>
    intro l hN hne i
    match l with
    | [x] =>
      rw [show proofList i [x] = [x] by rw [proofList]]
      rw [show ([x] : List Blake2bHash).length = 1 from rfl]
      rw [path_bits]
      simp
    | x :: y :: rest =>
      subst hN
      have hL : (x :: y :: rest).length = rest.length + 2 := by simp
      have hpp := pivot_of_pos (rest.length + 2)
      have hpl := pivot_of_lt (n := rest.length + 2) (by omega)
      have htlen : ((x :: y :: rest).take (pivot_of (rest.length + 2))).length =
          pivot_of (rest.length + 2) := by
        simp only [List.length_take, List.length_cons]
        omega
      have hdlen : ((x :: y :: rest).drop (pivot_of (rest.length + 2))).length =
          rest.length + 2 - pivot_of (rest.length + 2) := by
        simp only [List.length_drop, List.length_cons]
      have htne : (x :: y :: rest).take (pivot_of (rest.length + 2)) ≠ [] := by
        intro hc
        have := congrArg List.length hc
        rw [htlen] at this
        simp at this
        omega
      have hdne : (x :: y :: rest).drop (pivot_of (rest.length + 2)) ≠ [] := by
        intro hc
        have := congrArg List.length hc
        rw [hdlen] at this
        simp at this
        omega
      rw [proofList_cons2, hL, path_bits]
      rw [if_pos (by omega : 1 < rest.length + 2)]
      by_cases hip : i < pivot_of (rest.length + 2)
      · rw [if_pos hip, if_pos hip]
        rw [List.length_append]
        rw [ih (pivot_of (rest.length + 2)) (by omega) _ htlen htne i]
        rw [htlen]
        simp only [List.length_append, List.length_cons, List.length_nil]
        omega
      · rw [if_neg hip, if_neg hip]
        rw [List.length_append]
        rw [ih (rest.length + 2 - pivot_of (rest.length + 2)) (by omega) _ hdlen hdne
          (i - pivot_of (rest.length + 2))]
        rw [hdlen]
        simp only [List.length_append, List.length_cons, List.length_nil]
        omega

theorem proofList_ne_nil {l : List Blake2bHash} (hne : l ≠ []) (i : Nat) :
    proofList i l ≠ [] := by
  intro hc
  have := congrArg List.length hc
  rw [proofList_length l.length l rfl hne i] at this
  simp at this

theorem proofList_raw : ∀ (N : Nat) (l : List Blake2bHash), l.length = N → l ≠ [] →
    ∀ i p0 ptail, proofList i l = p0 :: ptail →
    raw_from_path (path_bits l.length i) p0 ptail = rawRoot l := by
  intro N
  induction N using Nat.strong_induction_on with
  | _ N ih =>
    intro l hN hne i p0 ptail hpl
    match l with
    | [x] =>
      rw [show proofList i [x] = [x] by rw [proofList]] at hpl
      injection hpl with h1 h2
      subst h1
      subst h2
      rw [show ([x] : List Blake2bHash).length = 1 from rfl, path_bits]
      simp only [show ¬ (1 : Nat) < 1 by omega, if_false]
      rw [raw_from_path, rawRoot]
    | x :: y :: rest =>
      subst hN
      have hL : (x :: y :: rest).length = rest.length + 2 := by simp
      have hpp := pivot_of_pos (rest.length + 2)
      have hpl2 := pivot_of_lt (n := rest.length + 2) (by omega)
      have htlen : ((x :: y :: rest).take (pivot_of (rest.length + 2))).length =
          pivot_of (rest.length + 2) := by
        simp only [List.length_take, List.length_cons]
        omega
      have hdlen : ((x :: y :: rest).drop (pivot_of (rest.length + 2))).length =
          rest.length + 2 - pivot_of (rest.length + 2) := by
        simp only [List.length_drop, List.length_cons]
      have htne : (x :: y :: rest).take (pivot_of (rest.length + 2)) ≠ [] := by
        intro hc
        have := congrArg List.length hc
        rw [htlen] at this
        simp at this
        omega
      have hdne : (x :: y :: rest).drop (pivot_of (rest.length + 2)) ≠ [] := by
        intro hc
        have := congrArg List.length hc
        rw [hdlen] at this
        simp at this
        omega
      rw [proofList_cons2] at hpl
      rw [hL, path_bits, if_pos (by omega : 1 < rest.length + 2)]
      by_cases hip : i < pivot_of (rest.length + 2)
      · rw [if_pos hip] at hpl
        rw [if_pos hip]
        cases heq : proofList i ((x :: y :: rest).take (pivot_of (rest.length + 2))) with
        | nil => exact absurd heq (proofList_ne_nil htne i)
        | cons q0 qtail =>
          rw [heq] at hpl
          rw [List.cons_append] at hpl
          injection hpl with h1 h2
          subst h1
          subst h2
          rw [raw_from_path]
          simp only [if_neg (show ¬ false = true by simp)]
          rw [List.dropLast_concat, List.getLastD_concat]
          have := ih (pivot_of (rest.length + 2)) (by omega) _ htlen htne i q0 qtail heq
          rw [htlen] at this
          rw [this, rawRoot_cons2]
      · rw [if_neg hip] at hpl
        rw [if_neg hip]
        cases heq : proofList (i - pivot_of (rest.length + 2))
            ((x :: y :: rest).drop (pivot_of (rest.length + 2))) with
        | nil => exact absurd heq (proofList_ne_nil hdne _)
        | cons q0 qtail =>
          rw [heq] at hpl
          rw [List.cons_append] at hpl
          injection hpl with h1 h2
          subst h1
          subst h2
          rw [raw_from_path]
          rw [List.dropLast_concat, List.getLastD_concat]
          have := ih (rest.length + 2 - pivot_of (rest.length + 2)) (by omega) _ hdlen hdne
            (i - pivot_of (rest.length + 2)) q0 qtail heq
          rw [hdlen] at this
          rw [this, rawRoot_cons2]
          simp

/-! ### Characterisations of the public operations -/

theorem root_hash_eq_raw_from_path (i n : Nat) (p0 : Blake2bHash) (ptail : List Blake2bHash)
    (hlen : ptail.length = (path_bits n i).length) (hbits : (path_bits n i).length ≤ 64) :
    IndexedMerkleProof.root_hash ⟨i, n, p0 :: ptail⟩ =
      hash_pair_bytes (u64_le_bytes n) (raw_from_path (path_bits n i) p0 ptail) := by
  show hash_pair_bytes (u64_le_bytes n) (hash_fold (path_loop n i 0) p0 ptail) = _
  rw [path_loop_spec n i hbits]
  rw [hash_fold_eq_fold_bits ptail (path_bits n i).reverse p0]
  rw [raw_from_path_eq_fold (path_bits n i) p0 ptail hlen]

theorem root_hash_nil_proof (i n : Nat) :
    IndexedMerkleProof.root_hash ⟨i, n, []⟩ = hash_pair_bytes (u64_le_bytes n) SENTINEL2 := rfl

theorem new_nil_zero : IndexedMerkleProof.new [] 0 = Except.ok ⟨0, 0, []⟩ := by
  show (match tree_fold1 new_combine (tag_leaves 0 []) with
    | none =>
      if 0 ≠ 0 then Except.error (MerkleConstructionError.EmptyProofMustHaveIndex 0)
      else Except.ok (⟨0, 0, []⟩ : IndexedMerkleProof)
    | some (count, HashOrProof.hash _) =>
      Except.error (MerkleConstructionError.IndexOutOfBounds count 0)
    | some (count, HashOrProof.proof mp) =>
      Except.ok ⟨0, count, mp⟩) = Except.ok ⟨0, 0, []⟩
  rw [show tag_leaves 0 [] = [] from rfl]
  rw [tree_fold1]
  simp

theorem new_nil_pos (i : Nat) (h : i ≠ 0) :
    IndexedMerkleProof.new [] i =
      Except.error (MerkleConstructionError.EmptyProofMustHaveIndex i) := by
  show (match tree_fold1 new_combine (tag_leaves i []) with
    | none =>
      if i ≠ 0 then Except.error (MerkleConstructionError.EmptyProofMustHaveIndex i)
      else Except.ok (⟨0, 0, []⟩ : IndexedMerkleProof)
    | some (count, HashOrProof.hash _) =>
      Except.error (MerkleConstructionError.IndexOutOfBounds count i)
    | some (count, HashOrProof.proof mp) =>
      Except.ok ⟨i, count, mp⟩) = _
  rw [show tag_leaves i [] = [] from rfl]
  rw [tree_fold1]
  simp [h]

theorem new_in_bounds (l : List Blake2bHash) (i : Nat) (h : i < l.length) :
    IndexedMerkleProof.new l i = Except.ok ⟨i, l.length, proofList i l⟩ := by
  have hne : l ≠ [] := by
    intro hc
    rw [hc] at h
    simp at h
  show (match tree_fold1 new_combine (tag_leaves i l) with
    | none =>
      if i ≠ 0 then Except.error (MerkleConstructionError.EmptyProofMustHaveIndex i)
      else Except.ok (⟨0, 0, []⟩ : IndexedMerkleProof)
    | some (count, HashOrProof.hash _) =>
      Except.error (MerkleConstructionError.IndexOutOfBounds count i)
    | some (count, HashOrProof.proof mp) =>
      Except.ok ⟨i, count, mp⟩) = _
  rw [tag_leaves_eq, tree_fold1_tagged l.length l rfl hne 0 i]
  rw [if_pos (by omega : 0 ≤ i ∧ i < 0 + l.length)]
  rw [show i - 0 = i by omega]

theorem new_out_of_bounds (l : List Blake2bHash) (i : Nat) (hne : l ≠ []) (h : l.length ≤ i) :
    IndexedMerkleProof.new l i =
      Except.error (MerkleConstructionError.IndexOutOfBounds l.length i) := by
  show (match tree_fold1 new_combine (tag_leaves i l) with
    | none =>
      if i ≠ 0 then Except.error (MerkleConstructionError.EmptyProofMustHaveIndex i)
      else Except.ok (⟨0, 0, []⟩ : IndexedMerkleProof)
    | some (count, HashOrProof.hash _) =>
      Except.error (MerkleConstructionError.IndexOutOfBounds count i)
    | some (count, HashOrProof.proof mp) =>
      Except.ok ⟨i, count, mp⟩) = _
  rw [tag_leaves_eq, tree_fold1_tagged l.length l rfl hne 0 i]
  rw [if_neg (by omega : ¬ (0 ≤ i ∧ i < 0 + l.length))]

theorem hash_merkle_tree_eq_rawRoot (leaves : List Blake2bHash) :
    hash_merkle_tree leaves =
      hash_pair_bytes (u64_le_bytes leaves.length) (rawRoot leaves) := by
  match leaves with
  | [] =>
    show hash_merkle_tree [] = hash_pair_bytes (u64_le_bytes 0) (rawRoot [])
    rw [show rawRoot [] = SENTINEL2 by rw [rawRoot]]
    show hash_pair_bytes
      (u64_le_bytes ((tree_fold1 (fun xc yc => (xc.1 + yc.1, hash_pair xc.2 yc.2))
        (([] : List Blake2bHash).map fun x => ((1 : Nat), x))).getD (0, SENTINEL2)).1)
      ((tree_fold1 (fun xc yc => (xc.1 + yc.1, hash_pair xc.2 yc.2))
        (([] : List Blake2bHash).map fun x => ((1 : Nat), x))).getD (0, SENTINEL2)).2 = _
    rw [show (([] : List Blake2bHash).map fun x => ((1 : Nat), x)) = [] from rfl]
    rw [tree_fold1]
    simp
  | x :: xs =>
    show hash_pair_bytes
      (u64_le_bytes ((tree_fold1 (fun xc yc => (xc.1 + yc.1, hash_pair xc.2 yc.2))
        ((x :: xs).map fun x => ((1 : Nat), x))).getD (0, SENTINEL2)).1)
      ((tree_fold1 (fun xc yc => (xc.1 + yc.1, hash_pair xc.2 yc.2))
        ((x :: xs).map fun x => ((1 : Nat), x))).getD (0, SENTINEL2)).2 = _
    rw [tree_fold1_map_count (x :: xs).length (x :: xs) rfl (by simp)]
    simp

theorem compute_expected_eq (p : IndexedMerkleProof) :
    p.compute_expected_proof_length = expected_len p.count p.index := by
  show (if p.count = 0 then 0 else proof_len_loop p.count p.index 1) = _
  rw [expected_len]
  by_cases h : p.count = 0
  · rw [if_pos h, if_pos h]
  · rw [if_neg h, if_neg h, proof_len_loop_eq]

theorem chunksOf_ne_nil (size : Nat) (hs : size ≠ 0) (d : List Nat) (hd : d ≠ []) :
    chunksOf size d ≠ [] := by
  cases d with
  | nil => exact absurd rfl hd
  | cons b bs =>
    rw [chunksOf, if_neg hs]
    simp

/-- Restatement of `IndexedMerkleProof::verify` as a function of `(count, index, proof length)`
only, with the expected length spelled as the spec words it. -/
def verify_shape (count index plen : Nat) : Except MerkleVerificationError Unit :=
  if ¬ ((count = 0 ∧ index = 0) ∨ index < count) then
    Except.error (MerkleVerificationError.IndexOutOfBounds count index)
  else if plen ≠ expected_len count index then
    Except.error (MerkleVerificationError.UnexpectedProofLength count index
      (expected_len count index) plen)
  else Except.ok ()

theorem verify_eq_shape (p : IndexedMerkleProof) :
    p.verify = verify_shape p.count p.index p.merkle_proof.length := by
  show (if ¬ ((p.count = 0 ∧ p.index = 0) ∨ p.index < p.count) then
      Except.error (MerkleVerificationError.IndexOutOfBounds p.count p.index)
    else if p.merkle_proof.length ≠ p.compute_expected_proof_length then
      Except.error (MerkleVerificationError.UnexpectedProofLength p.count p.index
        p.compute_expected_proof_length p.merkle_proof.length)
    else Except.ok ()) = _
  rw [verify_shape, compute_expected_eq]

/-! ### Claim theorems -/

/-- C1: for every leaf sequence and every valid index (index < number of
leaves, or index = 0 when the sequence is empty), `IndexedMerkleProof::new`
succeeds, and `root_hash` of the resulting proof equals
`hash_merkle_tree(leaves)`. -/
theorem merkle_proof_root_agreement (leaves : List Blake2bHash) (index : Nat)
    (hlen : leaves.length < 2 ^ 64)
    (hidx : index < leaves.length ∨ (leaves = [] ∧ index = 0)) :
    ∃ pr : IndexedMerkleProof, IndexedMerkleProof.new leaves index = Except.ok pr ∧
      pr.root_hash = hash_merkle_tree leaves := by
  rcases hidx with h | ⟨hnil, hzero⟩
  · refine ⟨⟨index, leaves.length, proofList index leaves⟩,
      new_in_bounds leaves index h, ?_⟩
    have hne : leaves ≠ [] := by
      intro hc
      rw [hc] at h
      simp at h
    have hbits : (path_bits leaves.length index).length ≤ 64 :=
      path_bits_length_le 64 _ _ (by omega)
    obtain ⟨p0, ptail, hpl⟩ : ∃ p0 ptail, proofList index leaves = p0 :: ptail := by
      cases heq : proofList index leaves with
      | nil => exact absurd heq (proofList_ne_nil hne index)
      | cons a b => exact ⟨a, b, rfl⟩
    have hptlen : ptail.length = (path_bits leaves.length index).length := by
      have hl2 := proofList_length leaves.length leaves rfl hne index
      rw [hpl] at hl2
      simp only [List.length_cons] at hl2
      omega
    show IndexedMerkleProof.root_hash ⟨index, leaves.length, proofList index leaves⟩ = _
    rw [hpl]
    rw [root_hash_eq_raw_from_path index leaves.length p0 ptail hptlen hbits]
    rw [proofList_raw leaves.length leaves rfl hne index p0 ptail hpl]
    rw [hash_merkle_tree_eq_rawRoot]
  · subst hnil
    subst hzero
    refine ⟨⟨0, 0, []⟩, new_nil_zero, ?_⟩
    rw [root_hash_nil_proof, hash_merkle_tree_eq_rawRoot]
    rw [show rawRoot [] = SENTINEL2 by rw [rawRoot]]
    rfl

/-- C1 witness: three leaves, index 1. -/
theorem merkle_proof_root_agreement_witness :
    ([Blake2bHash.lit 0, Blake2bHash.lit 1, Blake2bHash.lit 2].length < 2 ^ 64) ∧
    ∃ pr : IndexedMerkleProof,
      IndexedMerkleProof.new [Blake2bHash.lit 0, Blake2bHash.lit 1, Blake2bHash.lit 2] 1 =
        Except.ok pr ∧
      pr.root_hash = hash_merkle_tree [Blake2bHash.lit 0, Blake2bHash.lit 1, Blake2bHash.lit 2] :=
  ⟨by norm_num,
    merkle_proof_root_agreement _ 1 (by norm_num) (Or.inl (by norm_num))⟩

/-- C2: whenever the sibling list has exactly the expected length for
`(index, count)`, the iterative `root_hash` agrees with the recursive
tree-descent oracle `reference_root_from_proof`, and the path-computing loop
runs at most 64 iterations (one entry of `path_bits` per iteration) for any
64-bit count. -/
theorem root_hash_iterative_eq_recursive (index count : Nat) (pr : List Blake2bHash)
    (hcount : count < 2 ^ 64)
    (hlen : pr.length =
      (IndexedMerkleProof.mk index count pr).compute_expected_proof_length) :
    (IndexedMerkleProof.mk index count pr).root_hash =
        reference_root_from_proof index count pr ∧
      (path_bits count index).length ≤ 64 := by
  have hbits : (path_bits count index).length ≤ 64 :=
    path_bits_length_le 64 count index (by omega)
  refine ⟨?_, hbits⟩
  rw [compute_expected_eq] at hlen
  simp only [expected_len] at hlen
  by_cases h0 : count = 0
  · subst h0
    rw [if_pos rfl] at hlen
    rw [List.length_eq_zero] at hlen
    subst hlen
    rw [root_hash_nil_proof, reference_root_from_proof]
    rw [show compute_raw_root_from_proof index 0 [] = SENTINEL2 by
      rw [compute_raw_root_from_proof]
      simp]
  · rw [if_neg h0] at hlen
    cases pr with
    | nil =>
      simp only [List.length_nil] at hlen
      omega
    | cons p0 ptail =>
      have hptlen : ptail.length = (path_bits count index).length := by
        simp only [List.length_cons] at hlen
        omega
      rw [root_hash_eq_raw_from_path index count p0 ptail hptlen hbits]
      rw [reference_root_from_proof]
      rw [compute_raw_root_eq count index p0 ptail (by omega) hptlen]

/-- C2 witness: count 1, index 0, a single-entry sibling list. -/
theorem root_hash_iterative_eq_recursive_witness :
    ((1 : Nat) < 2 ^ 64) ∧
    ((IndexedMerkleProof.mk 0 1 [Blake2bHash.lit 7]).root_hash =
        reference_root_from_proof 0 1 [Blake2bHash.lit 7] ∧
      (path_bits 1 0).length ≤ 64) :=
  ⟨by norm_num,
    root_hash_iterative_eq_recursive 0 1 [Blake2bHash.lit 7] (by norm_num)
      (by
        rw [compute_expected_eq, expected_len]
        rw [show path_bits 1 0 = [] by rw [path_bits]; simp]
        simp)⟩

/-- C3: for `index < count < 2^64` the expected sibling-list length is at
most 65, and the proof built over any sequence of exactly `count` leaves has
a sibling list of exactly that length. -/
theorem proof_length_formula (count index : Nat) (hidx : index < count)
    (hcount : count < 2 ^ 64) :
    (IndexedMerkleProof.mk index count []).compute_expected_proof_length ≤ 65 ∧
    ∀ leaves : List Blake2bHash, leaves.length = count →
      ∃ pr : IndexedMerkleProof, IndexedMerkleProof.new leaves index = Except.ok pr ∧
        pr.merkle_proof.length =
          (IndexedMerkleProof.mk index count []).compute_expected_proof_length := by
  have hbits : (path_bits count index).length ≤ 64 :=
    path_bits_length_le 64 count index (by omega)
  have hexp : (IndexedMerkleProof.mk index count []).compute_expected_proof_length =
      1 + (path_bits count index).length := by
    rw [compute_expected_eq, expected_len, if_neg (by omega : ¬ count = 0)]
  refine ⟨by omega, ?_⟩
  intro leaves hlc
  refine ⟨⟨index, leaves.length, proofList index leaves⟩,
    new_in_bounds leaves index (by omega), ?_⟩
  have hne : leaves ≠ [] := by
    intro hc
    rw [hc] at hlc
    simp at hlc
    omega
  show (proofList index leaves).length = _
  rw [proofList_length leaves.length leaves rfl hne index, hlc, hexp]

/-- C3 witness: count 2, index 1, leaves of length 2. -/
theorem proof_length_formula_witness :
    ((IndexedMerkleProof.mk 1 2 []).compute_expected_proof_length ≤ 65 ∧
    ∀ leaves : List Blake2bHash, leaves.length = 2 →
      ∃ pr : IndexedMerkleProof, IndexedMerkleProof.new leaves 1 = Except.ok pr ∧
        pr.merkle_proof.length =
          (IndexedMerkleProof.mk 1 2 []).compute_expected_proof_length) :=
  proof_length_formula 2 1 (by norm_num) (by norm_num)

/-- C4: the method `verify` fails with `IndexOutOfBounds{count, index}` exactly when
neither `index < count` nor `count = 0 ∧ index = 0` holds; otherwise it fails
with `UnexpectedProofLength{count, index, expected, actual}` exactly when the
actual sibling-list length differs from the expected length (0 when
`count = 0`, else 1 plus the number of path bits); otherwise it succeeds.
The outcome depends only on `(count, index, sibling-list length)` — no
hashing is performed. -/
theorem verify_spec (p : IndexedMerkleProof) :
    (p.verify = Except.ok () ↔
      (((p.count = 0 ∧ p.index = 0) ∨ p.index < p.count) ∧
        p.merkle_proof.length = expected_len p.count p.index)) ∧
    (p.verify = Except.error (MerkleVerificationError.IndexOutOfBounds p.count p.index) ↔
      ¬ ((p.count = 0 ∧ p.index = 0) ∨ p.index < p.count)) ∧
    (p.verify = Except.error (MerkleVerificationError.UnexpectedProofLength p.count p.index
        (expected_len p.count p.index) p.merkle_proof.length) ↔
      (((p.count = 0 ∧ p.index = 0) ∨ p.index < p.count) ∧
        p.merkle_proof.length ≠ expected_len p.count p.index)) ∧
    p.compute_expected_proof_length = expected_len p.count p.index ∧
    (∀ q : IndexedMerkleProof, q.index = p.index → q.count = p.count →
      q.merkle_proof.length = p.merkle_proof.length → q.verify = p.verify) := by
  refine ⟨?_, ?_, ?_, compute_expected_eq p, ?_⟩
  · rw [verify_eq_shape, verify_shape]
    by_cases hb : (p.count = 0 ∧ p.index = 0) ∨ p.index < p.count
    · rw [if_neg (not_not_intro hb)]
      by_cases hl : p.merkle_proof.length = expected_len p.count p.index
      · rw [if_neg (by simpa using hl)]
        simp [hb, hl]
      · rw [if_pos hl]
        simp [hb, hl]
    · rw [if_pos hb]
      simp [hb]
  · rw [verify_eq_shape, verify_shape]
    by_cases hb : (p.count = 0 ∧ p.index = 0) ∨ p.index < p.count
    · rw [if_neg (not_not_intro hb)]
      by_cases hl : p.merkle_proof.length = expected_len p.count p.index
      · rw [if_neg (by simpa using hl)]
        simp [hb]
      · rw [if_pos hl]
        simp [hb]
    · rw [if_pos hb]
      simp [hb]
  · rw [verify_eq_shape, verify_shape]
    by_cases hb : (p.count = 0 ∧ p.index = 0) ∨ p.index < p.count
    · rw [if_neg (not_not_intro hb)]
      by_cases hl : p.merkle_proof.length = expected_len p.count p.index
      · rw [if_neg (by simpa using hl)]
        simp [hb, hl]
      · rw [if_pos hl]
        simp [hb, hl]
    · rw [if_pos hb]
      simp [hb]
  · intro q h1 h2 h3
    rw [verify_eq_shape, verify_eq_shape, h1, h2, h3]

/-- C4 witness: two proofs with the same index, count and sibling-list length
but different hash contents verify identically. -/
theorem verify_spec_witness :
    (IndexedMerkleProof.mk 1 2 [Blake2bHash.lit 9, Blake2bHash.lit 3]).verify =
      (IndexedMerkleProof.mk 1 2 [Blake2bHash.lit 0, Blake2bHash.lit 5]).verify :=
  (verify_spec (IndexedMerkleProof.mk 1 2 [Blake2bHash.lit 0, Blake2bHash.lit 5])).2.2.2.2
    (IndexedMerkleProof.mk 1 2 [Blake2bHash.lit 9, Blake2bHash.lit 3]) rfl rfl rfl

/-- C5: the constructor `IndexedMerkleProof::new` on an empty input succeeds only at index 0
(returning the degenerate proof), fails with `EmptyProofMustHaveIndex` at any
nonzero index; on a non-empty input of n leaves it fails with
`IndexOutOfBounds{count: n, index}` when `index ≥ n`, and for `index < n`
returns a proof carrying that index, count n and the accumulated sibling
list. -/
theorem new_spec :
    (IndexedMerkleProof.new [] 0 = Except.ok ⟨0, 0, []⟩) ∧
    (∀ i : Nat, i ≠ 0 → IndexedMerkleProof.new [] i =
      Except.error (MerkleConstructionError.EmptyProofMustHaveIndex i)) ∧
    (∀ (l : List Blake2bHash) (i : Nat), l ≠ [] → l.length ≤ i → l.length < 2 ^ 64 →
      IndexedMerkleProof.new l i =
        Except.error (MerkleConstructionError.IndexOutOfBounds l.length i)) ∧
    (∀ (l : List Blake2bHash) (i : Nat), i < l.length → l.length < 2 ^ 64 →
      ∃ mp, IndexedMerkleProof.new l i = Except.ok ⟨i, l.length, mp⟩) :=
  ⟨new_nil_zero, new_nil_pos,
    fun l i hne h _ => new_out_of_bounds l i hne h,
    fun l i h _ => ⟨proofList i l, new_in_bounds l i h⟩⟩

/-- C5 witness: each failure and success mode at a concrete input. -/
theorem new_spec_witness :
    (IndexedMerkleProof.new [] 2 =
      Except.error (MerkleConstructionError.EmptyProofMustHaveIndex 2)) ∧
    (IndexedMerkleProof.new [Blake2bHash.lit 0] 3 =
      Except.error (MerkleConstructionError.IndexOutOfBounds
        [Blake2bHash.lit 0].length 3)) ∧
    (∃ mp, IndexedMerkleProof.new [Blake2bHash.lit 0, Blake2bHash.lit 1] 1 =
      Except.ok ⟨1, [Blake2bHash.lit 0, Blake2bHash.lit 1].length, mp⟩) :=
  ⟨new_spec.2.1 2 (by norm_num),
    new_spec.2.2.1 [Blake2bHash.lit 0] 3 (by simp) (by norm_num) (by norm_num),
    new_spec.2.2.2 [Blake2bHash.lit 0, Blake2bHash.lit 1] 1 (by norm_num) (by norm_num)⟩

/-- C6: chunk verification runs the structural proof check first and fails
(as the boolean `false`) if it fails; otherwise it succeeds exactly when the
hash of the chunk payload equals element 0 of the sibling list.  The result
is a `Bool` built from those two checks alone — the reconstructed root is
never consulted. -/
theorem chunk_verify_steps (c : ChunkWithProof) :
    c.verify = true ↔ (c.proof.verify = Except.ok () ∧
      c.proof.merkle_proof.head? = some (blake2b_hash c.chunk)) := by
  unfold ChunkWithProof.verify
  cases hv : c.proof.verify with
  | error e => simp
  | ok u =>
    cases u
    cases hh : c.proof.merkle_proof.head? with
    | none => simp
    | some first =>
      constructor
      · intro h
        simp only [decide_eq_true_eq] at h
        exact ⟨rfl, by rw [h]⟩
      · intro h
        have h2 := h.2
        injection h2 with h3
        simp only [decide_eq_true_eq]
        rw [h3]

/-- C10: a chunk whose embedded proof has an empty sibling list never
verifies: the missing first element is treated as a failed match. -/
theorem chunk_verify_empty_sibling (c : ChunkWithProof)
    (h : c.proof.merkle_proof = []) : c.verify = false := by
  unfold ChunkWithProof.verify
  cases hv : c.proof.verify with
  | error e => rfl
  | ok u =>
    rw [h]
    rfl

/-- C10 witness: the structurally valid degenerate proof (count 0, index 0,
empty sibling list) with an empty payload still fails verification. -/
theorem chunk_verify_empty_sibling_witness :
    ((⟨⟨0, 0, []⟩, []⟩ : ChunkWithProof).proof.merkle_proof = []) ∧
      (⟨⟨0, 0, []⟩, []⟩ : ChunkWithProof).verify = false :=
  ⟨rfl, chunk_verify_empty_sibling ⟨⟨0, 0, []⟩, []⟩ rfl⟩

/-- C8: building the chunk of an empty buffer at index 0 succeeds with an
empty payload and a proof with index 0, count 1 and sibling list
`[hash(empty)]`, for every chunk size. -/
theorem chunk_empty_data_succeeds (chunk_size : Nat) :
    ChunkWithProof.new [] 0 chunk_size =
      Except.ok ⟨⟨0, 1, [blake2b_hash []]⟩, []⟩ := by
  unfold ChunkWithProof.new
  rw [if_pos rfl]
  rw [new_in_bounds [blake2b_hash []] 0 (by norm_num)]
  rw [show proofList 0 [blake2b_hash []] = [blake2b_hash []] by rw [proofList]]
  rfl

/-- C7: requesting chunk index n of a buffer that splits into n chunks (an
empty buffer counting as one chunk) fails with `IndexOutOfBounds{n, n}`; in
particular empty data at index 1 fails with `IndexOutOfBounds{1, 1}`. -/
theorem chunk_index_out_of_bounds :
    (∀ (data : List Nat) (chunk_size : Nat), 0 < chunk_size → data.length < 2 ^ 64 →
      ChunkWithProof.new data (num_chunks data chunk_size) chunk_size =
        Except.error (MerkleConstructionError.IndexOutOfBounds
          (num_chunks data chunk_size) (num_chunks data chunk_size))) ∧
    (∀ chunk_size : Nat, ChunkWithProof.new [] 1 chunk_size =
      Except.error (MerkleConstructionError.IndexOutOfBounds 1 1)) := by
  have hempty : ∀ chunk_size : Nat, ChunkWithProof.new [] 1 chunk_size =
      Except.error (MerkleConstructionError.IndexOutOfBounds 1 1) := by
    intro cs
    unfold ChunkWithProof.new
    rw [if_pos rfl]
    rw [new_out_of_bounds [blake2b_hash []] 1 (by simp) (by simp)]
    rfl
  refine ⟨?_, hempty⟩
  intro data cs hcs _
  by_cases hd : data = []
  · subst hd
    exact hempty cs
  · have hcne : chunksOf cs data ≠ [] := chunksOf_ne_nil cs (by omega) data hd
    have hn : num_chunks data cs = (chunksOf cs data).length := by
      rw [num_chunks, if_neg hd]
    have hmlen : ((chunksOf cs data).map blake2b_hash).length =
        (chunksOf cs data).length := by simp
    unfold ChunkWithProof.new
    rw [if_neg hd]
    rw [new_out_of_bounds ((chunksOf cs data).map blake2b_hash) (num_chunks data cs)
      (by simpa using hcne) (by rw [hmlen, hn])]
    rw [hmlen, hn]

/-- C7 witness: three bytes at chunk size two split into two chunks; chunk
index 2 is rejected with count 2; and the empty-data instance. -/
theorem chunk_index_out_of_bounds_witness :
    (ChunkWithProof.new [0, 1, 2] (num_chunks [0, 1, 2] 2) 2 =
      Except.error (MerkleConstructionError.IndexOutOfBounds
        (num_chunks [0, 1, 2] 2) (num_chunks [0, 1, 2] 2))) ∧
    (ChunkWithProof.new [] 1 5 =
      Except.error (MerkleConstructionError.IndexOutOfBounds 1 1)) :=
  ⟨chunk_index_out_of_bounds.1 [0, 1, 2] 2 (by norm_num) (by norm_num),
    chunk_index_out_of_bounds.2 5⟩

/-- C9: the function `hash_merkle_tree` always emits
`hash_pair(count.to_le_bytes(), raw_root)`: for no leaves the raw root is the
`SENTINEL2` constant, for one leaf it is that leaf unchanged; and `root_hash`
applies the identical count-binding final step. -/
theorem root_count_binding :
    (∀ leaves : List Blake2bHash, hash_merkle_tree leaves =
      hash_pair_bytes (u64_le_bytes leaves.length) (rawRoot leaves)) ∧
    hash_merkle_tree [] = hash_pair_bytes (u64_le_bytes 0) SENTINEL2 ∧
    (∀ h : Blake2bHash, hash_merkle_tree [h] = hash_pair_bytes (u64_le_bytes 1) h) ∧
    (∀ p : IndexedMerkleProof, ∃ raw, p.root_hash =
      hash_pair_bytes (u64_le_bytes p.count) raw) := by
  refine ⟨hash_merkle_tree_eq_rawRoot, ?_, ?_, ?_⟩
  · rw [hash_merkle_tree_eq_rawRoot]
    rw [show rawRoot [] = SENTINEL2 by rw [rawRoot]]
    rfl
  · intro h
    rw [hash_merkle_tree_eq_rawRoot]
    rw [show rawRoot [h] = h by rw [rawRoot]]
    rfl
  · intro p
    exact ⟨_, rfl⟩

end Casper
